import Mathlib

/-!
Verification of the MarkText document persistence layer
(`src/main/filesystem/markdown.js` and `src/main/menu/actions/file.js`).

Content strings are embedded as `List Char` (JS strings), byte buffers as
`List Nat` with every entry `< 256`.  External library calls (Node `crypto`,
`iconv`, `fs`, `path`) are modelled at their documented boundary; the AES-128
block primitive itself is kept abstract as a pair of block functions, since
only its permutation property is relevant to the repository code.
-/

namespace MarkText

/-! ## Byte-level helpers: hex, xor, chunking (boundary of Node `Buffer`) -/

/-- One hex digit, as decoded by `Buffer.from(-, 'hex')`. -/
def hexVal (c : Char) : Option Nat :=
  if '0' ≤ c ∧ c ≤ '9' then some (c.toNat - '0'.toNat)
  else if 'a' ≤ c ∧ c ≤ 'f' then some (c.toNat - 'a'.toNat + 10)
  else if 'A' ≤ c ∧ c ≤ 'F' then some (c.toNat - 'A'.toNat + 10)
  else none

/-- `Buffer.from(str, 'hex')`: decode hex pairs, stopping at the first
invalid pair or odd trailing digit. -/
def hexDecode : List Char → List Nat
  | a :: b :: rest =>
    match hexVal a, hexVal b with
    | some x, some y => (x * 16 + y) :: hexDecode rest
    | _, _ => []
  | _ => []

/-- Bytewise xor of two buffers (CBC chaining step). -/
def xorBytes (a b : List Nat) : List Nat :=
  List.zipWith (fun x y => x ^^^ y) a b

/-- Split a byte stream into 16-byte cipher blocks (a trailing fragment of
fewer than 16 bytes becomes a short final block). -/
def chunks16 : List Nat → List (List Nat)
  | b0 :: b1 :: b2 :: b3 :: b4 :: b5 :: b6 :: b7 ::
    b8 :: b9 :: b10 :: b11 :: b12 :: b13 :: b14 :: b15 :: rest =>
    [b0, b1, b2, b3, b4, b5, b6, b7, b8, b9, b10, b11, b12, b13, b14, b15] :: chunks16 rest
  | [] => []
  | l => [l]

/-! ## PKCS#7 padding (the `aes-128-cbc` default of Node `crypto`) -/

/-- PKCS#7 pad to a multiple of 16 bytes: append `p` copies of `p`, where
`p = 16 - len % 16` (a full block of 16s when the length is already a
multiple). -/
def pad16 (bs : List Nat) : List Nat :=
  bs ++ List.replicate (16 - bs.length % 16) (16 - bs.length % 16)

/-- PKCS#7 unpad, validating every padding byte; `none` on invalid padding
(OpenSSL `bad decrypt`).  The padding count is the last byte
(`getLastD 0`; an empty buffer fails the `1 ≤ p` check). -/
def unpad (bs : List Nat) : Option (List Nat) :=
  if 1 ≤ bs.getLastD 0 ∧ bs.getLastD 0 ≤ 16 ∧ bs.getLastD 0 ≤ bs.length ∧
      bs.drop (bs.length - bs.getLastD 0) = List.replicate (bs.getLastD 0) (bs.getLastD 0)
  then some (bs.take (bs.length - bs.getLastD 0))
  else none

/-! ## Base64 (the `'base64'` codec of `cipher.update`/`Buffer.from`) -/

/-- The base64 alphabet. -/
def b64Alphabet : List Char :=
  "ABCDEFGHIJKLMNOPQRSTUVWXYZabcdefghijklmnopqrstuvwxyz0123456789+/".data

/-- Character of a 6-bit group. -/
def b64Char (n : Nat) : Char := b64Alphabet.getD n 'A'

/-- Alphabet position of a character, `none` when not in the alphabet. -/
def b64Val (c : Char) : Option Nat := b64Alphabet.findIdx? (· = c)

/-- Standard base64 encoding with `=` padding. -/
def b64encode : List Nat → List Char
  | a :: b :: c :: rest =>
    b64Char (a / 4) :: b64Char (a % 4 * 16 + b / 16) ::
    b64Char (b % 16 * 4 + c / 64) :: b64Char (c % 64) :: b64encode rest
  | [a, b] =>
    [b64Char (a / 4), b64Char (a % 4 * 16 + b / 16), b64Char (b % 16 * 4), '=']
  | [a] =>
    [b64Char (a / 4), b64Char (a % 4 * 16), '=', '=']
  | [] => []

/-- Decode a stream of 6-bit values; a trailing group of 3 or 2 values
yields 2 or 1 bytes, a single leftover value is dropped (Node semantics). -/
def b64DecodeVals : List Nat → List Nat
  | w :: x :: y :: z :: rest =>
    (w * 4 + x / 16) :: (x % 16 * 16 + y / 4) :: (y % 4 * 64 + z) :: b64DecodeVals rest
  | [w, x, y] => [w * 4 + x / 16, x % 16 * 16 + y / 4]
  | [w, x] => [w * 4 + x / 16]
  | _ => []

/-- Node's lenient base64 decoding: read until the first `=`, skip characters
outside the alphabet, then decode 6-bit groups. -/
def b64decode (s : List Char) : List Nat :=
  b64DecodeVals ((s.takeWhile (· ≠ '=')).filterMap b64Val)

/-! ## UTF-8 (the `'utf8'` codec of `cipher.update`) -/

/-- UTF-8 encoding of one code point. -/
def utf8EncodeChar (n : Nat) : List Nat :=
  if n < 0x80 then [n]
  else if n < 0x800 then [0xC0 + n / 64, 0x80 + n % 64]
  else if n < 0x10000 then [0xE0 + n / 4096, 0x80 + n / 64 % 64, 0x80 + n % 64]
  else [0xF0 + n / 0x40000, 0x80 + n / 4096 % 64, 0x80 + n / 64 % 64, 0x80 + n % 64]

/-- UTF-8 encoding of a string. -/
def utf8Encode (s : List Char) : List Nat :=
  s.foldr (fun c acc => utf8EncodeChar c.toNat ++ acc) []

/-- Whether a byte is a UTF-8 continuation byte. -/
def isCont (b : Nat) : Bool := 0x80 ≤ b ∧ b < 0xC0

/-- Code point of a two-byte UTF-8 sequence (lead byte in `C2..DF`);
`none` when the continuation byte is invalid. -/
def utf8Cp2 (b b1 : Nat) : Option Char :=
  if isCont b1 then some (Char.ofNat ((b - 0xC0) * 64 + (b1 - 0x80))) else none

/-- The code point denoted by a three-byte UTF-8 sequence. -/
def cp3 (b b1 b2 : Nat) : Nat := (b - 0xE0) * 4096 + (b1 - 0x80) * 64 + (b2 - 0x80)

/-- Code point of a three-byte UTF-8 sequence; `none` on invalid
continuation bytes, overlong forms or surrogates. -/
def utf8Cp3 (b b1 b2 : Nat) : Option Char :=
  if isCont b1 ∧ isCont b2 ∧ 0x800 ≤ cp3 b b1 b2 ∧
      (cp3 b b1 b2 < 0xD800 ∨ 0xE000 ≤ cp3 b b1 b2) then
    some (Char.ofNat (cp3 b b1 b2))
  else none

/-- The code point denoted by a four-byte UTF-8 sequence. -/
def cp4 (b b1 b2 b3 : Nat) : Nat :=
  (b - 0xF0) * 0x40000 + (b1 - 0x80) * 4096 + (b2 - 0x80) * 64 + (b3 - 0x80)

/-- Code point of a four-byte UTF-8 sequence; `none` on invalid
continuation bytes or out-of-range forms. -/
def utf8Cp4 (b b1 b2 b3 : Nat) : Option Char :=
  if isCont b1 ∧ isCont b2 ∧ isCont b3 ∧ 0x10000 ≤ cp4 b b1 b2 b3 ∧
      cp4 b b1 b2 b3 < 0x110000 then
    some (Char.ofNat (cp4 b b1 b2 b3))
  else none

/-- Number of bytes of a UTF-8 sequence, from its lead byte. -/
def utf8Bytes (b : Nat) : Nat :=
  if b < 0x80 then 1 else if b < 0xE0 then 2 else if b < 0xF0 then 3 else 4

/-- Decode the single UTF-8 code point at the head of the byte list;
`none` on a malformed or truncated sequence. -/
def utf8DecodeOne : List Nat → Option Char
  | [] => none
  | b :: rest =>
    if b < 0x80 then some (Char.ofNat b)
    else if b < 0xC2 then none
    else if b < 0xE0 then
      if rest.length < 1 then none else utf8Cp2 b (rest.getD 0 0)
    else if b < 0xF0 then
      if rest.length < 2 then none else utf8Cp3 b (rest.getD 0 0) (rest.getD 1 0)
    else if b < 0xF5 then
      if rest.length < 3 then none else utf8Cp4 b (rest.getD 0 0) (rest.getD 1 0) (rest.getD 2 0)
    else none

/-- Strict UTF-8 decoding; `none` on malformed input (the behaviour of
ECMA-262 `decodeURI`, which throws `URIError` on ill-formed sequences). -/
def utf8Decode : List Nat → Option (List Char)
  | [] => some []
  | b :: rest =>
    match utf8DecodeOne (b :: rest) with
    | none => none
    | some c => (utf8Decode (rest.drop (utf8Bytes b - 1))).map (c :: ·)
termination_by l => l.length
decreasing_by simp; omega

/-- The replacement character U+FFFD emitted by lossy UTF-8 conversion. -/
def fffd : Char := Char.ofNat 0xFFFD

/-- Lower bound of the first continuation byte for a given lead byte
(WHATWG UTF-8 decoder: `E0` requires `A0..`, `F0` requires `90..`). -/
def cont1Lo (b : Nat) : Nat := if b = 0xE0 then 0xA0 else if b = 0xF0 then 0x90 else 0x80

/-- Upper bound of the first continuation byte for a given lead byte
(WHATWG UTF-8 decoder: `ED` allows `..9F`, `F4` allows `..8F`). -/
def cont1Hi (b : Nat) : Nat := if b = 0xED then 0x9F else if b = 0xF4 then 0x8F else 0xBF

/-- Whether a byte lies in a continuation range. -/
def contOk (b lo hi : Nat) : Bool := lo ≤ b ∧ b ≤ hi

/-- One step of the WHATWG/V8 replacement decoder: given up to four
lookahead bytes of which `avail` are real, the emitted character and the
number of bytes consumed (the maximal subpart of a valid sequence, at
least one byte; an ill-formed or truncated sequence yields U+FFFD). -/
def utf8StepEmit (b b1 b2 b3 avail : Nat) : Char × Nat :=
  if b < 0x80 then (Char.ofNat b, 1)
  else if 0xC2 ≤ b ∧ b ≤ 0xDF then
    if 2 ≤ avail ∧ contOk b1 (cont1Lo b) (cont1Hi b) then
      (Char.ofNat ((b - 0xC0) * 64 + (b1 - 0x80)), 2)
    else (fffd, 1)
  else if 0xE0 ≤ b ∧ b ≤ 0xEF then
    if avail < 2 then (fffd, 1)
    else if ¬ contOk b1 (cont1Lo b) (cont1Hi b) then (fffd, 1)
    else if avail < 3 then (fffd, 2)
    else if ¬ contOk b2 0x80 0xBF then (fffd, 2)
    else (Char.ofNat (cp3 b b1 b2), 3)
  else if 0xF0 ≤ b ∧ b ≤ 0xF4 then
    if avail < 2 then (fffd, 1)
    else if ¬ contOk b1 (cont1Lo b) (cont1Hi b) then (fffd, 1)
    else if avail < 3 then (fffd, 2)
    else if ¬ contOk b2 0x80 0xBF then (fffd, 2)
    else if avail < 4 then (fffd, 3)
    else if ¬ contOk b3 0x80 0xBF then (fffd, 3)
    else (Char.ofNat (cp4 b b1 b2 b3), 4)
  else (fffd, 1)

/-- Lossy UTF-8 decoding with U+FFFD substitution, as performed by Node's
`'utf8'` output conversion (`buf.toString('utf8')` via V8): it never fails,
replacing each maximal subpart of an ill-formed sequence by one replacement
character and resuming at the next byte. -/
def utf8Lossy : List Nat → List Char
  | [] => []
  | [b] => [(utf8StepEmit b 0 0 0 1).1]
  | [b, b1] =>
    if (utf8StepEmit b b1 0 0 2).2 = 1 then (utf8StepEmit b b1 0 0 2).1 :: utf8Lossy [b1]
    else [(utf8StepEmit b b1 0 0 2).1]
  | [b, b1, b2] =>
    if (utf8StepEmit b b1 b2 0 3).2 = 1 then (utf8StepEmit b b1 b2 0 3).1 :: utf8Lossy [b1, b2]
    else if (utf8StepEmit b b1 b2 0 3).2 = 2 then (utf8StepEmit b b1 b2 0 3).1 :: utf8Lossy [b2]
    else [(utf8StepEmit b b1 b2 0 3).1]
  | b :: b1 :: b2 :: b3 :: rest =>
    if (utf8StepEmit b b1 b2 b3 4).2 = 1 then
      (utf8StepEmit b b1 b2 b3 4).1 :: utf8Lossy (b1 :: b2 :: b3 :: rest)
    else if (utf8StepEmit b b1 b2 b3 4).2 = 2 then
      (utf8StepEmit b b1 b2 b3 4).1 :: utf8Lossy (b2 :: b3 :: rest)
    else if (utf8StepEmit b b1 b2 b3 4).2 = 3 then
      (utf8StepEmit b b1 b2 b3 4).1 :: utf8Lossy (b3 :: rest)
    else (utf8StepEmit b b1 b2 b3 4).1 :: utf8Lossy rest

/-! ## CBC mode over an abstract block cipher

`crypto.createCipheriv('aes-128-cbc', key, iv)` is an external library call;
the AES-128 block primitive is modelled as a function from a 16-byte key and
a 16-byte block to a 16-byte block.  Every theorem below holds for any block
permutation, AES-128 included. -/

/-- CBC encryption chaining: each plaintext block is xor-ed with the previous
ciphertext block (initially the IV) before the block cipher is applied. -/
def cbcEnc (E : List Nat → List Nat → List Nat) (key : List Nat) :
    List Nat → List (List Nat) → List (List Nat)
  | _, [] => []
  | prev, b :: bs =>
    let c := E key (xorBytes b prev)
    c :: cbcEnc E key c bs

/-- CBC decryption chaining. -/
def cbcDec (D : List Nat → List Nat → List Nat) (key : List Nat) :
    List Nat → List (List Nat) → List (List Nat)
  | _, [] => []
  | prev, c :: cs => xorBytes (D key c) prev :: cbcDec D key c cs

/-- `const mm = crypto.createHash('md5').update('43214321md').digest('hex')`.
The md5 computation is the external crypto library; its value on the fixed
input `'43214321md'` is inlined. -/
def mm : List Char := "157016ad77a8f12fe276db44226b352e".data

/-- The full ciphertext byte stream of `aesEncryptiv`: AES-128-CBC under the
given IV over the PKCS#7-padded UTF-8 bytes of `str`, key `hexDecode key`. -/
def aesCtBytes (E : List Nat → List Nat → List Nat) (str : List Char) (key : List Char)
    (iv : List Nat) : List Nat :=
  (cbcEnc E (hexDecode key) iv (chunks16 (pad16 (utf8Encode str)))).flatten

/-- `aesEncryptiv(str, key)` from `src/main/filesystem/markdown.js`:
hex-decode the key (`keyBuffer`), reuse the key bytes as the IV
(`const iv = keyBuffer` — the IV argument of `aesCtBytes` below), run
AES-128-CBC over the UTF-8 bytes of `str` and emit base64.  Node's
`cipher.update(str, 'utf8', 'base64')` returns the complete blocks available
so far — the first `16 * (n / 16)` ciphertext bytes for an `n`-byte input —
as one base64 string (padded with `=` to a multiple of 4), and
`cipher.final('base64')` returns the remaining ciphertext as a second,
independently padded base64 string; the code concatenates the two. -/
def aesEncryptiv (E : List Nat → List Nat → List Nat) (str : List Char) (key : List Char) :
    List Char :=
  b64encode ((aesCtBytes E str key (hexDecode key)).take
      (16 * ((utf8Encode str).length / 16))) ++
    b64encode ((aesCtBytes E str key (hexDecode key)).drop
      (16 * ((utf8Encode str).length / 16)))

/-- `aesDecryptiv(str, key)`: base64-decode (Node's forgiving decoder:
non-alphabet bytes skipped, decoding stops at the first `=`), AES-128-CBC
decrypt with the key bytes as IV, unpad, convert to a string.  `none` models
the exception Node throws on a ciphertext whose length is not a positive
multiple of the block size or whose padding is invalid; the final `'utf8'`
output conversion never throws (ill-formed bytes become U+FFFD), hence
`utf8Lossy`. -/
def aesDecryptiv (D : List Nat → List Nat → List Nat) (str : List Char) (key : List Char) :
    Option (List Char) :=
  if (b64decode str).length % 16 ≠ 0 then none
  else
    (unpad (cbcDec D (hexDecode key) (hexDecode key) (chunks16 (b64decode str))).flatten).map
      utf8Lossy

/-- Modelled from the spec: a proper save-path encryption "draws a fresh
random IV per encryption"; this variant takes that per-encryption IV as an
explicit argument instead of deriving it from the key, emitting the same
`update(…, 'base64') + final('base64')` concatenation as `aesEncryptiv`. -/
def aesEncryptivFreshIv (E : List Nat → List Nat → List Nat) (str : List Char)
    (key : List Char) (iv : List Nat) : List Char :=
  b64encode ((aesCtBytes E str key iv).take (16 * ((utf8Encode str).length / 16))) ++
    b64encode ((aesCtBytes E str key iv).drop (16 * ((utf8Encode str).length / 16)))

/-- Concrete stand-in block cipher used in witnesses: add 1 to each byte.
Any block permutation (AES-128 included) satisfies the hypotheses of the
round-trip theorem; this one keeps witnesses computable. -/
def sampleBlockEnc (_key : List Nat) (b : List Nat) : List Nat :=
  b.map (fun x => (x + 1) % 256)

/-- Inverse of `sampleBlockEnc`. -/
def sampleBlockDec (_key : List Nat) (b : List Nat) : List Nat :=
  b.map (fun x => (x + 255) % 256)

/-! ## Line-ending detection and normalization

The regexes `LF_LINE_ENDING_REG`, `CRLF_LINE_ENDING_REG` and
`LINE_ENDING_REG` live in `src/main/config.js`, which is not part of the
sources; they are modelled from the spec (§4.2). -/

/-- Helper for `containsBareLf`: previous character is tracked. -/
def bareLfAux : Char → List Char → Bool
  | _, [] => false
  | prev, '\n' :: rest => if prev ≠ '\r' then true else bareLfAux '\n' rest
  | _, c :: rest => bareLfAux c rest

/-- Modelled from the spec: `LF_LINE_ENDING_REG.test` — "scan decoded text
for the presence of bare line-feed sequences not preceded by
carriage-return". -/
def containsBareLf : List Char → Bool
  | [] => false
  | '\n' :: _ => true
  | c :: rest => bareLfAux c rest

/-- Modelled from the spec: `CRLF_LINE_ENDING_REG.test` — presence of a
carriage-return-line-feed sequence. -/
def containsCrlf : List Char → Bool
  | [] => false
  | [_] => false
  | c :: r :: rest =>
    if c = '\r' then
      if r = '\n' then true else containsCrlf (r :: rest)
    else containsCrlf (r :: rest)

/-- `getLineEnding`: `'lf' → "\n"`, `'crlf' → "\r\n"`, fallback `"\n"`. -/
def getLineEnding (lineEnding : List Char) : List Char :=
  if lineEnding = "lf".data then "\n".data
  else if lineEnding = "crlf".data then "\r\n".data
  else "\n".data

/-- Modelled from the spec: global replacement of `LINE_ENDING_REG`
(a CRLF pair or a bare LF) by the target sequence, scanning left to right
without rescanning the replacement; a character starting no match (in
particular a lone CR) is copied unchanged. -/
def replaceEol (eol : List Char) : List Char → List Char
  | [] => []
  | [c] => if c = '\n' then eol else [c]
  | c :: r :: rest =>
    if c = '\r' then
      if r = '\n' then eol ++ replaceEol eol rest else c :: replaceEol eol (r :: rest)
    else if c = '\n' then eol ++ replaceEol eol (r :: rest)
    else c :: replaceEol eol (r :: rest)

/-- `convertLineEndings(text, lineEnding)`. -/
def convertLineEndings (text : List Char) (lineEnding : List Char) : List Char :=
  replaceEol (getLineEnding lineEnding) text

/-- Every carriage return in the list is immediately followed by a line
feed (no lone `\r`). -/
def crOk : List Char → Bool
  | [] => true
  | [c] => if c = '\r' then false else true
  | c :: r :: rest =>
    if c = '\r' then
      if r = '\n' then crOk rest else false
    else crOk (r :: rest)

/-! ## Trailing-newline classification (`loadMarkdownFile`, lines 121–139) -/

/-- The "Detect final newline" block: runs only when the caller-supplied
value is `2`; empty content selects the default sentinel `3`, a double
trailing LF keeps `2` (disabled), a single trailing LF selects `1`
(ensure single), otherwise `0` (trim all). -/
def classifyTrailingNewline (trimTrailingNewline : Nat) (markdown : List Char) : Nat :=
  if trimTrailingNewline = 2 then
    if markdown = [] then 3
    else if 1 ≤ markdown.length - 1 ∧ markdown.getD (markdown.length - 1) ' ' = '\n' ∧
        markdown.getD (markdown.length - 1 - 1) ' ' = '\n' then 2
    else if markdown.getD (markdown.length - 1) ' ' = '\n' then 1
    else 0
  else trimTrailingNewline

/-! ## Path helpers (boundary of Node `path`, posix separators) -/

/-- The path with trailing separators removed. -/
def dropTrailingSeps (p : List Char) : List Char :=
  (p.reverse.dropWhile (· = '/')).reverse

/-- `path.basename(p)`: the segment after the last separator, ignoring
trailing separators. -/
def basename (p : List Char) : List Char :=
  ((dropTrailingSeps p).reverse.takeWhile (· ≠ '/')).reverse

/-- Index of the last `.` in a list, if any. -/
def lastDotIdx : List Char → Option Nat
  | [] => none
  | c :: rest =>
    match lastDotIdx rest with
    | some j => some (j + 1)
    | none => if c = '.' then some 0 else none

/-- `path.extname(p)`: the suffix of the basename from its last dot; empty
when the basename has no dot, when the dot is its first character (dotfiles
such as `.mde`), or when the basename is `..`. -/
def extname (p : List Char) : List Char :=
  let base := basename p
  match lastDotIdx base with
  | none => []
  | some 0 => []
  | some i => if base = "..".data then [] else base.drop i

/-! ## `loadMarkdownFile` (lines 82–157) and `writeMarkdownFile` (lines 56–71)

`fs.readFile`, `guessEncoding` and `iconv.decode` are the external
byte-to-text boundary: the model receives the decoded text. -/

/-- The load-path codec predicate: `pathname.endsWith('.mde')` (line 96). -/
def loadAppliesDecrypt (pathname : List Char) : Bool :=
  ".mde".data.isSuffixOf pathname

/-- Lines 95–101: decrypt when the pathname ends in `.mde`; the `try`/empty
`catch` keeps the undecrypted text when decryption throws. -/
def applyLoadCodec (D : List Nat → List Nat → List Nat) (pathname : List Char)
    (markdown : List Char) : List Char :=
  if loadAppliesDecrypt pathname then (aesDecryptiv D markdown mm).getD markdown
  else markdown

/-- The raw markdown document record returned by `loadMarkdownFile`
(the detected `encoding` field is part of the external encoding boundary
and not modelled). -/
structure RawDoc where
  markdown : List Char
  filename : List Char
  pathname : List Char
  lineEnding : List Char
  adjustLineEndingOnSave : Bool
  trimTrailingNewline : Nat
  isMixedLineEndings : Bool
deriving Repr, DecidableEq

/-- Lines 107–112: the resolved line-ending style — `lf` when only bare LF
was seen, `crlf` when only CRLF was seen, otherwise the caller-preferred
style. -/
def resolveLineEnding (isLf isCrlf : Bool) (preferredEol : List Char) : List Char :=
  if isLf && !isCrlf then "lf".data
  else if isCrlf && !isLf then "crlf".data
  else preferredEol

/-- Lines 114–119: the `adjustLineEndingOnSave` flag (assigned
`lineEnding !== 'lf'` inside the guarded block, `false` otherwise) paired
with the possibly LF-normalized markdown. -/
def loadStep (markdown : List Char) (isLf isCrlf : Bool) (lineEnding : List Char) :
    Bool × List Char :=
  if (isLf && isCrlf) || (!isLf && !isCrlf) || lineEnding ≠ "lf".data then
    (decide (lineEnding ≠ "lf".data), convertLineEndings markdown "lf".data)
  else (false, markdown)

/-- `loadMarkdownFile(pathname, preferredEol, autoGuessEncoding,
trimTrailingNewline)`, as a function of the decoded text. -/
def loadMarkdownFile (D : List Nat → List Nat → List Nat) (pathname : List Char)
    (decoded : List Char) (preferredEol : List Char) (trimTrailingNewline : Nat := 2) :
    RawDoc :=
  let markdown := applyLoadCodec D pathname decoded
  let isLf := containsBareLf markdown
  let isCrlf := containsCrlf markdown
  let lineEnding := resolveLineEnding isLf isCrlf preferredEol
  let step := loadStep markdown isLf isCrlf lineEnding
  { markdown := step.2
    filename := basename pathname
    pathname := pathname
    lineEnding := lineEnding
    adjustLineEndingOnSave := step.1
    trimTrailingNewline := classifyTrailingNewline trimTrailingNewline step.2
    isMixedLineEndings := isLf && isCrlf }

/-- Line 59: `path.extname(pathname) || '.md'`. -/
def writeExtension (pathname : List Char) : List Char :=
  if extname pathname = [] then ".md".data else extname pathname

/-- The save-path codec predicate: `extension == '.mde'` (line 64). -/
def saveAppliesEncrypt (pathname : List Char) : Bool :=
  writeExtension pathname = ".mde".data

/-- `writeMarkdownFile(pathname, content, options)` up to the final
`iconv.encode`/`writeFile` byte boundary: the text that gets encoded. -/
def writeMarkdownFile (E : List Nat → List Nat → List Nat) (pathname : List Char)
    (content : List Char) (adjustLineEndingOnSave : Bool) (lineEnding : List Char) :
    List Char :=
  let content :=
    if adjustLineEndingOnSave then convertLineEndings content lineEnding else content
  if saveAppliesEncrypt pathname then aesEncryptiv E content mm else content

/-! ## Asset-reference scanner (`src/main/menu/actions/file.js`, lines 188–205)

The two regexes `/\[.*?\]\(.+\)/g` and `/ src.+?".+?"/g` are specialized into
backtracking matchers with JS semantics: `.` matches anything except the four
line terminators, `*?`/`+?` are lazy with backtracking into the continuation,
`+` inside `\(.+\)` is greedy, and the global scan resumes after each match,
advancing one character on failure. -/

/-- JS `.` (no `s` flag): any character except LF, CR, U+2028, U+2029. -/
def dotOk (c : Char) : Bool :=
  c ≠ '\n' ∧ c ≠ '\r' ∧ c ≠ Char.ofNat 0x2028 ∧ c ≠ Char.ofNat 0x2029

/-- Largest index of `)` in a list, if any. -/
def lastCloseIdx : List Char → Option Nat
  | [] => none
  | c :: rest =>
    match lastCloseIdx rest with
    | some j => some (j + 1)
    | none => if c = ')' then some 0 else none

/-- Greedy `.+\)`: consume the longest run of dot-matching characters that
ends just before a `)`, requiring at least one character before it. -/
def greedyParen (l : List Char) : Option (List Char × List Char) :=
  match lastCloseIdx (l.takeWhile dotOk) with
  | some j => if 1 ≤ j then some (l.take (j + 1), l.drop (j + 1)) else none
  | none => none

/-- Lazy `.*?\]\(.+\)` after the opening `[`: try to close at the nearest
`]` whose continuation `\(.+\)` succeeds, else extend the lazy dots. -/
def mdAfterBracket : List Char → Option (List Char × List Char)
  | [] => none
  | c :: rest =>
    (if c = ']' then
      match rest with
      | '(' :: rest2 =>
        match greedyParen rest2 with
        | some (mid, after) => some (']' :: '(' :: mid, after)
        | none => none
      | _ => none
    else none).orElse
    (fun _ => if dotOk c then (mdAfterBracket rest).map (fun p => (c :: p.1, p.2)) else none)

/-- Match of `/\[.*?\]\(.+\)/` anchored at the head of the list,
returning the matched text and the remainder. -/
def matchMdAt : List Char → Option (List Char × List Char)
  | '[' :: rest => (mdAfterBracket rest).map (fun p => ('[' :: p.1, p.2))
  | _ => none

/-- Lazy `.+?"` with no continuation: at least one dot-matching character,
then the nearest `"`. -/
def lazyQuote : List Char → Option (List Char × List Char)
  | [] => none
  | c :: rest => if dotOk c then lazyQuoteAfterOne rest |>.map (fun p => (c :: p.1, p.2)) else none
where
  /-- After one character is consumed: scan to the nearest `"`. -/
  lazyQuoteAfterOne : List Char → Option (List Char × List Char)
    | [] => none
    | c :: rest =>
      if c = '"' then some (['"'], rest)
      else if dotOk c then (lazyQuoteAfterOne rest).map (fun p => (c :: p.1, p.2))
      else none

/-- Lazy first part `.+?"` of the html pattern, backtracking into the second
`.+?"` part: close at the nearest `"` whose continuation succeeds. -/
def htmlFirstQuote : List Char → Option (List Char × List Char)
  | [] => none
  | c :: rest =>
    if dotOk c then (htmlFirstSearch rest).map (fun p => (c :: p.1, p.2)) else none
where
  /-- Scan for a `"` whose remainder matches `.+?"`. -/
  htmlFirstSearch : List Char → Option (List Char × List Char)
    | [] => none
    | c :: rest =>
      (if c = '"' then (lazyQuote rest).map (fun p => ('"' :: p.1, p.2)) else none).orElse
      (fun _ =>
        if dotOk c then (htmlFirstSearch rest).map (fun p => (c :: p.1, p.2)) else none)

/-- Match of `/ src.+?".+?"/` anchored at the head of the list. -/
def matchHtmlAt : List Char → Option (List Char × List Char)
  | ' ' :: 's' :: 'r' :: 'c' :: rest =>
    (htmlFirstQuote rest).map (fun p => (' ' :: 's' :: 'r' :: 'c' :: p.1, p.2))
  | _ => none

/-- Global scan (`String.prototype.match` with `/g`): collect successive
matches, resuming after each match and advancing one character when no match
starts at the current position.  Both patterns only ever match at least one
character, so `fuel = length` suffices. -/
def scanAux (matchAt : List Char → Option (List Char × List Char)) :
    Nat → List Char → List (List Char)
  | 0, _ => []
  | _, [] => []
  | fuel + 1, s@(_ :: rest) =>
    match matchAt s with
    | some (m, after) => m :: scanAux matchAt fuel after
    | none => scanAux matchAt fuel rest

/-- `markdown.match(/\[.*?\]\(.+\)/g)`, `null` mapped to `[]`. -/
def imgMarkMatches (markdown : List Char) : List (List Char) :=
  scanAux matchMdAt markdown.length markdown

/-- `markdown.match(/ src.+?".+?"/g)`, `null` mapped to `[]`. -/
def imgHtmlMatches (markdown : List Char) : List (List Char) :=
  scanAux matchHtmlAt markdown.length markdown

/-! ## `decodeURI` (ECMA-262 Decode with the reserved set kept escaped) -/

/-- Characters whose escapes `decodeURI` leaves untouched. -/
def uriReserved (c : Char) : Bool :=
  c = ';' ∨ c = '/' ∨ c = '?' ∨ c = ':' ∨ c = '@' ∨ c = '&' ∨
  c = '=' ∨ c = '+' ∨ c = '$' ∨ c = ',' ∨ c = '#'

/-- One `%XX` escape: its byte value. -/
def escByte (a b : Char) : Option Nat := do
  let x ← hexVal a
  let y ← hexVal b
  pure (x * 16 + y)

/-- `decodeURI`: percent-decode, keeping reserved-character escapes and
decoding multi-byte escapes through UTF-8; `none` models the `URIError`
thrown on malformed input. -/
def decodeURI : List Char → Option (List Char)
  | [] => some []
  | '%' :: a :: b :: rest => do
    let byte ← escByte a b
    if byte < 0x80 then
      let c := Char.ofNat byte
      if uriReserved c then ('%' :: a :: b :: ·) <$> decodeURI rest
      else (c :: ·) <$> decodeURI rest
    else if byte < 0xC0 then none
    else if byte < 0xE0 then
      match rest with
      | '%' :: a1 :: b1 :: rest1 => do
        let byte1 ← escByte a1 b1
        match utf8Decode [byte, byte1] with
        | some [c] => (c :: ·) <$> decodeURI rest1
        | _ => none
      | _ => none
    else if byte < 0xF0 then
      match rest with
      | '%' :: a1 :: b1 :: '%' :: a2 :: b2 :: rest2 => do
        let byte1 ← escByte a1 b1
        let byte2 ← escByte a2 b2
        match utf8Decode [byte, byte1, byte2] with
        | some [c] => (c :: ·) <$> decodeURI rest2
        | _ => none
      | _ => none
    else if byte < 0xF8 then
      match rest with
      | '%' :: a1 :: b1 :: '%' :: a2 :: b2 :: '%' :: a3 :: b3 :: rest3 => do
        let byte1 ← escByte a1 b1
        let byte2 ← escByte a2 b2
        let byte3 ← escByte a3 b3
        match utf8Decode [byte, byte1, byte2, byte3] with
        | some [c] => (c :: ·) <$> decodeURI rest3
        | _ => none
      | _ => none
    else none
  | '%' :: _ => none
  | c :: rest => (c :: ·) <$> decodeURI rest

/-- `getRelativeImgPathFromMarkdown(markdown)`: the two match lists
concatenated, each entry passed through `decodeURI`.  A `URIError` from
`decodeURI` propagates out of the function (`none`). -/
def getRelativeImgPathFromMarkdown (markdown : List Char) : Option (List (List Char)) :=
  (imgMarkMatches markdown ++ imgHtmlMatches markdown).mapM decodeURI

/-! ## Orphan-asset collector (`src/main/menu/actions/file.js`, lines 159–186) -/

/-- `haystack.indexOf(needle) > -1`: `needle` occurs as a contiguous
substring. -/
def occurs (needle haystack : List Char) : Bool :=
  needle.isPrefixOf haystack ||
    match haystack with
    | [] => false
    | _ :: rest => occurs needle rest

/-- JS `String.prototype.replace` with a string pattern: replace the first
occurrence only (leftmost), or return the string unchanged. -/
def replaceFirst (s pat rep : List Char) : List Char :=
  if pat.isPrefixOf s then rep ++ s.drop pat.length
  else
    match s with
    | [] => []
    | c :: rest => c :: replaceFirst rest pat rep

/-- Line 161: `filePath.replace('.mde', '.assets').replace('.md', '.assets')`
— the derived asset directory. -/
def assetDir (filePath : List Char) : List Char :=
  replaceFirst (replaceFirst filePath ".mde".data ".assets".data) ".md".data ".assets".data

/-- The inner `forEach` flag of lines 173–179: some reference contains the
directory entry. -/
def hasRef (imgRow : List (List Char)) (dirFile : List Char) : Bool :=
  imgRow.foldl (fun ifhas onePath => if occurs dirFile onePath then true else ifhas) false

/-- Lines 171–183: collect `dir + path.sep + dirFile` for every entry not
contained in any reference. -/
def notNeedFiles (dir : List Char) (dirFiles imgRow : List (List Char)) :
    List (List Char) :=
  dirFiles.foldl
    (fun acc dirFile =>
      if hasRef imgRow dirFile then acc else acc ++ [dir ++ '/' :: dirFile])
    []

/-- The deletion-candidate set computed by `checkImgAndDelete`, as a function
of the filesystem facts (`fs.existsSync` result and `fs.readdirSync`
listing): the whole directory when it exists and no reference was extracted,
nothing when it does not exist, otherwise the unreferenced entries.
Deletion itself (`tryDelete`) is the external confirmation collaborator. -/
def checkImgCandidates (hasDir : Bool) (dirFiles : List (List Char))
    (filePath : List Char) (imgRow : List (List Char)) : List (List Char) :=
  let dir := assetDir filePath
  if hasDir && imgRow.length == 0 then [dir]
  else if !hasDir then []
  else notNeedFiles dir dirFiles imgRow

/-- `checkImgAndDelete(win, filePath, markdown)` composed with the scanner. -/
def checkImgAndDelete (hasDir : Bool) (dirFiles : List (List Char))
    (filePath : List Char) (markdown : List Char) : Option (List (List Char)) :=
  (getRelativeImgPathFromMarkdown markdown).map (checkImgCandidates hasDir dirFiles filePath)

/-! ## Spec-side reference definitions -/

/-- The trailing-newline classification read off the end of the content:
empty → default sentinel (3), last two characters both LF → disabled (2),
last character LF with second-to-last not LF → ensure-single (1), no
trailing LF → trim-all (0).  (On empty content this follows the code's own
`Use default value` comment, value 3, not the spec's claimed `disabled`.) -/
def specTrailingClass (markdown : List Char) : Nat :=
  if markdown = [] then 3
  else if markdown.getLast? = some '\n' ∧ markdown.dropLast.getLast? = some '\n' then 2
  else if markdown.getLast? = some '\n' then 1
  else 0

/-! # Supporting lemmas -/

/-! ## Base64 round trip -/

theorem b64Val_b64Char : ∀ n, n < 64 → b64Val (b64Char n) = some n := by decide

theorem b64Char_ne_pad : ∀ n, n < 64 → b64Char n ≠ '=' := by decide

theorem b64stream_cons {v : Nat} (h : v < 64) (s : List Char) :
    ((b64Char v :: s).takeWhile (· ≠ '=')).filterMap b64Val
      = v :: (s.takeWhile (· ≠ '=')).filterMap b64Val := by
  have h1 := b64Char_ne_pad v h
  have h2 := b64Val_b64Char v h
  simp [List.takeWhile_cons, h1, List.filterMap_cons, h2]

theorem b64_roundtrip : ∀ bs : List Nat, (∀ x ∈ bs, x < 256) → b64decode (b64encode bs) = bs := by
  intro bs
  induction bs using b64encode.induct with
  | case1 a b c rest ih =>
    intro hm
    have ha : a < 256 := hm a (by simp)
    have hb : b < 256 := hm b (by simp)
    have hc : c < 256 := hm c (by simp)
    have ihr := ih (fun x hx => hm x (by simp [hx]))
    rw [b64encode]
    unfold b64decode at ihr ⊢
    rw [b64stream_cons (by omega), b64stream_cons (by omega), b64stream_cons (by omega),
      b64stream_cons (by omega), b64DecodeVals]
    rw [show a / 4 * 4 + (a % 4 * 16 + b / 16) / 16 = a by omega,
      show (a % 4 * 16 + b / 16) % 16 * 16 + (b % 16 * 4 + c / 64) / 4 = b by omega,
      show (b % 16 * 4 + c / 64) % 4 * 64 + c % 64 = c by omega, ihr]
  | case2 a b =>
    intro hm
    have ha : a < 256 := hm a (by simp)
    have hb : b < 256 := hm b (by simp)
    rw [b64encode]
    unfold b64decode
    rw [b64stream_cons (by omega), b64stream_cons (by omega), b64stream_cons (by omega)]
    simp only [List.takeWhile_cons, decide_not, List.takeWhile_nil]
    norm_num [b64DecodeVals]
    omega
  | case3 a =>
    intro hm
    have ha : a < 256 := hm a (by simp)
    rw [b64encode]
    unfold b64decode
    rw [b64stream_cons (by omega), b64stream_cons (by omega)]
    simp only [List.takeWhile_cons, decide_not, List.takeWhile_nil]
    norm_num [b64DecodeVals]
    omega
  | case4 => intro; rfl

/-! ## UTF-8 round trip -/

theorem char_valid_ranges (c : Char) :
    c.toNat < 0xD800 ∨ (0xDFFF < c.toNat ∧ c.toNat < 0x110000) := by
  have h := c.valid
  unfold UInt32.isValidChar Nat.isValidChar at h
  exact h

theorem utf8DecodeChar_enc (c : Char) (rest : List Nat) :
    utf8Decode (utf8EncodeChar c.toNat ++ rest) = (utf8Decode rest).map (c :: ·) := by
  have hv := char_valid_ranges c
  have hofnat : Char.ofNat c.toNat = c := Char.ofNat_toNat c
  by_cases h1 : c.toNat < 0x80
  · rw [utf8EncodeChar, if_pos h1,
      show ([c.toNat] ++ rest : List Nat) = c.toNat :: rest from rfl, utf8Decode,
      utf8DecodeOne, if_pos h1, hofnat]
    rw [show utf8Bytes c.toNat = 1 from by rw [utf8Bytes, if_pos h1]]
    simp
  · by_cases h2 : c.toNat < 0x800
    · rw [utf8EncodeChar, if_neg h1, if_pos h2,
        show ([0xC0 + c.toNat / 64, 0x80 + c.toNat % 64] ++ rest : List Nat)
          = (0xC0 + c.toNat / 64) :: (0x80 + c.toNat % 64) :: rest from rfl,
        utf8Decode, utf8DecodeOne,
        if_neg (by omega), if_neg (by omega), if_pos (by omega)]
      rw [if_neg (by simp), show ((0x80 + c.toNat % 64) :: rest).getD 0 0
          = 0x80 + c.toNat % 64 from rfl, utf8Cp2]
      rw [if_pos (by simp [isCont]; omega),
        show (0xC0 + c.toNat / 64 - 0xC0) * 64 + (0x80 + c.toNat % 64 - 0x80)
          = c.toNat from by omega, hofnat]
      rw [show utf8Bytes (0xC0 + c.toNat / 64) = 2 from by
        rw [utf8Bytes, if_neg (by omega), if_pos (by omega)]]
      simp
    · by_cases h3 : c.toNat < 0x10000
      · rw [utf8EncodeChar, if_neg h1, if_neg h2, if_pos h3,
          show ([0xE0 + c.toNat / 4096, 0x80 + c.toNat / 64 % 64, 0x80 + c.toNat % 64]
              ++ rest : List Nat)
            = (0xE0 + c.toNat / 4096) :: (0x80 + c.toNat / 64 % 64)
              :: (0x80 + c.toNat % 64) :: rest from rfl,
          utf8Decode, utf8DecodeOne,
          if_neg (by omega), if_neg (by omega), if_neg (by omega), if_pos (by omega)]
        rw [if_neg (by simp)]
        rw [show ((0x80 + c.toNat / 64 % 64) :: (0x80 + c.toNat % 64) :: rest).getD 0 0
            = 0x80 + c.toNat / 64 % 64 from rfl,
          show ((0x80 + c.toNat / 64 % 64) :: (0x80 + c.toNat % 64) :: rest).getD 1 0
            = 0x80 + c.toNat % 64 from rfl, utf8Cp3]
        rw [show cp3 (0xE0 + c.toNat / 4096) (0x80 + c.toNat / 64 % 64) (0x80 + c.toNat % 64)
            = c.toNat from by unfold cp3; omega]
        rw [if_pos (And.intro (by simp [isCont]; omega) (And.intro (by simp [isCont]; omega)
          (And.intro (by omega) (by omega)))), hofnat]
        rw [show utf8Bytes (0xE0 + c.toNat / 4096) = 3 from by
          rw [utf8Bytes, if_neg (by omega), if_neg (by omega), if_pos (by omega)]]
        simp
      · have h4 : c.toNat < 0x110000 := by omega
        rw [utf8EncodeChar, if_neg h1, if_neg h2, if_neg h3,
          show ([0xF0 + c.toNat / 0x40000, 0x80 + c.toNat / 4096 % 64,
              0x80 + c.toNat / 64 % 64, 0x80 + c.toNat % 64] ++ rest : List Nat)
            = (0xF0 + c.toNat / 0x40000) :: (0x80 + c.toNat / 4096 % 64)
              :: (0x80 + c.toNat / 64 % 64) :: (0x80 + c.toNat % 64) :: rest from rfl,
          utf8Decode, utf8DecodeOne,
          if_neg (by omega), if_neg (by omega), if_neg (by omega), if_neg (by omega),
          if_pos (by omega)]
        rw [if_neg (by simp)]
        rw [show ((0x80 + c.toNat / 4096 % 64) :: (0x80 + c.toNat / 64 % 64)
              :: (0x80 + c.toNat % 64) :: rest).getD 0 0 = 0x80 + c.toNat / 4096 % 64 from rfl,
          show ((0x80 + c.toNat / 4096 % 64) :: (0x80 + c.toNat / 64 % 64)
              :: (0x80 + c.toNat % 64) :: rest).getD 1 0 = 0x80 + c.toNat / 64 % 64 from rfl,
          show ((0x80 + c.toNat / 4096 % 64) :: (0x80 + c.toNat / 64 % 64)
              :: (0x80 + c.toNat % 64) :: rest).getD 2 0 = 0x80 + c.toNat % 64 from rfl,
          utf8Cp4]
        rw [show cp4 (0xF0 + c.toNat / 0x40000) (0x80 + c.toNat / 4096 % 64)
            (0x80 + c.toNat / 64 % 64) (0x80 + c.toNat % 64) = c.toNat from by unfold cp4; omega]
        rw [if_pos (And.intro (by simp [isCont]; omega) (And.intro (by simp [isCont]; omega)
          (And.intro (by simp [isCont]; omega) (And.intro (by omega) (by omega))))), hofnat]
        rw [show utf8Bytes (0xF0 + c.toNat / 0x40000) = 4 from by
          rw [utf8Bytes, if_neg (by omega), if_neg (by omega), if_neg (by omega)]]
        simp

theorem utf8_roundtrip (s : List Char) : utf8Decode (utf8Encode s) = some s := by
  induction s with
  | nil => rw [show utf8Encode [] = [] from rfl, utf8Decode]
  | cons c cs ih =>
    rw [show utf8Encode (c :: cs) = utf8EncodeChar c.toNat ++ utf8Encode cs from rfl,
      utf8DecodeChar_enc, ih, Option.map_some']

theorem utf8EncodeChar_lt (n : Nat) (h : n < 0x110000) : ∀ x ∈ utf8EncodeChar n, x < 256 := by
  unfold utf8EncodeChar
  split
  · simp; omega
  · split
    · simp; omega
    · split
      · intro x hx
        simp at hx
        rcases hx with h | h | h <;> omega
      · intro x hx
        simp at hx
        rcases hx with h | h | h | h <;> omega

theorem utf8Encode_lt (s : List Char) : ∀ x ∈ utf8Encode s, x < 256 := by
  induction s with
  | nil => simp [utf8Encode]
  | cons c cs ih =>
    have hch : c.toNat < 0x110000 := by
      rcases char_valid_ranges c with h | h
      · omega
      · omega
    rw [show utf8Encode (c :: cs) = utf8EncodeChar c.toNat ++ utf8Encode cs from rfl]
    intro x hx
    rcases List.mem_append.mp hx with h | h
    · exact utf8EncodeChar_lt c.toNat hch x h
    · exact ih x h

/-! ## Chunking, padding and CBC -/

theorem chunks16_append16 (c rest : List Nat) (h : c.length = 16) :
    chunks16 (c ++ rest) = c :: chunks16 rest := by
  obtain ⟨b0, c, rfl⟩ := List.exists_of_length_succ c h
  simp only [List.length_cons] at h
  obtain ⟨b1, c, rfl⟩ := List.exists_of_length_succ c (show c.length = 14 + 1 by omega)
  simp only [List.length_cons] at h
  obtain ⟨b2, c, rfl⟩ := List.exists_of_length_succ c (show c.length = 13 + 1 by omega)
  simp only [List.length_cons] at h
  obtain ⟨b3, c, rfl⟩ := List.exists_of_length_succ c (show c.length = 12 + 1 by omega)
  simp only [List.length_cons] at h
  obtain ⟨b4, c, rfl⟩ := List.exists_of_length_succ c (show c.length = 11 + 1 by omega)
  simp only [List.length_cons] at h
  obtain ⟨b5, c, rfl⟩ := List.exists_of_length_succ c (show c.length = 10 + 1 by omega)
  simp only [List.length_cons] at h
  obtain ⟨b6, c, rfl⟩ := List.exists_of_length_succ c (show c.length = 9 + 1 by omega)
  simp only [List.length_cons] at h
  obtain ⟨b7, c, rfl⟩ := List.exists_of_length_succ c (show c.length = 8 + 1 by omega)
  simp only [List.length_cons] at h
  obtain ⟨b8, c, rfl⟩ := List.exists_of_length_succ c (show c.length = 7 + 1 by omega)
  simp only [List.length_cons] at h
  obtain ⟨b9, c, rfl⟩ := List.exists_of_length_succ c (show c.length = 6 + 1 by omega)
  simp only [List.length_cons] at h
  obtain ⟨b10, c, rfl⟩ := List.exists_of_length_succ c (show c.length = 5 + 1 by omega)
  simp only [List.length_cons] at h
  obtain ⟨b11, c, rfl⟩ := List.exists_of_length_succ c (show c.length = 4 + 1 by omega)
  simp only [List.length_cons] at h
  obtain ⟨b12, c, rfl⟩ := List.exists_of_length_succ c (show c.length = 3 + 1 by omega)
  simp only [List.length_cons] at h
  obtain ⟨b13, c, rfl⟩ := List.exists_of_length_succ c (show c.length = 2 + 1 by omega)
  simp only [List.length_cons] at h
  obtain ⟨b14, c, rfl⟩ := List.exists_of_length_succ c (show c.length = 1 + 1 by omega)
  simp only [List.length_cons] at h
  obtain ⟨b15, c, rfl⟩ := List.exists_of_length_succ c (show c.length = 0 + 1 by omega)
  simp only [List.length_cons] at h
  have hnil : c = [] := List.length_eq_zero.mp (by omega)
  subst hnil
  rfl

theorem chunks16_eq (l : List Nat) (h16 : 16 ≤ l.length) :
    chunks16 l = l.take 16 :: chunks16 (l.drop 16) := by
  have h := List.take_append_drop 16 l
  have hc : (l.take 16).length = 16 := by simp [List.length_take]; omega
  calc chunks16 l = chunks16 (l.take 16 ++ l.drop 16) := by rw [h]
    _ = l.take 16 :: chunks16 (l.drop 16) := chunks16_append16 _ _ hc

theorem chunks16_flatten : ∀ l : List Nat, (chunks16 l).flatten = l := by
  intro l
  induction l using chunks16.induct with
  | case1 b0 b1 b2 b3 b4 b5 b6 b7 b8 b9 b10 b11 b12 b13 b14 b15 rest ih =>
    rw [chunks16]
    simp only [List.flatten_cons, ih]
    rfl
  | case2 => rfl
  | case3 l h1 h2 =>
    rw [chunks16.eq_3 l h1 h2]
    simp

theorem chunks16_ofFlatten : ∀ cs : List (List Nat), (∀ c ∈ cs, c.length = 16) →
    chunks16 cs.flatten = cs := by
  intro cs
  induction cs with
  | nil => intro; rfl
  | cons c cs ih =>
    intro h
    rw [List.flatten_cons, chunks16_append16 c cs.flatten (h c (by simp)),
      ih (fun x hx => h x (by simp [hx]))]

theorem chunks16_all16 : ∀ (n : Nat) (l : List Nat), l.length ≤ n → l.length % 16 = 0 →
    ∀ c ∈ chunks16 l, c.length = 16 := by
  intro n
  induction n with
  | zero =>
    intro l h hm c hc
    have : l = [] := List.length_eq_zero.mp (by omega)
    subst this
    simp [chunks16] at hc
  | succ k ih =>
    intro l h hm c hc
    cases l with
    | nil => simp [chunks16] at hc
    | cons b t =>
      rw [chunks16_eq _ (by simp at hm ⊢; omega)] at hc
      rcases List.mem_cons.mp hc with rfl | hmem
      · simp [List.length_take]
        simp at hm
        omega
      · refine ih _ ?_ ?_ c hmem
        · simp at h ⊢
          omega
        · simp at hm ⊢
          omega

/-! ## Padding -/

theorem getLast?_replicate (p x : Nat) (h : 0 < p) :
    (List.replicate p x).getLast? = some x := by
  induction p with
  | zero => omega
  | succ n ih =>
    cases n with
    | zero => rfl
    | succ m =>
      rw [List.replicate_succ, List.replicate_succ, List.getLast?_cons_cons,
        ← List.replicate_succ]
      exact ih (by omega)

theorem pad16_len_mod (bs : List Nat) : (pad16 bs).length % 16 = 0 := by
  have h1 : bs.length % 16 < 16 := Nat.mod_lt _ (by norm_num)
  simp [pad16]
  omega

theorem pad16_lt (bs : List Nat) (h : ∀ x ∈ bs, x < 256) : ∀ x ∈ pad16 bs, x < 256 := by
  intro x hx
  rcases List.mem_append.mp hx with hm | hm
  · exact h x hm
  · have := List.eq_of_mem_replicate hm
    omega

theorem unpad_pad16 (bs : List Nat) : unpad (pad16 bs) = some bs := by
  have h1 : bs.length % 16 < 16 := Nat.mod_lt _ (by norm_num)
  have hgl : (pad16 bs).getLastD 0 = 16 - bs.length % 16 := by
    rw [pad16, List.getLastD_eq_getLast?, List.getLast?_append,
      getLast?_replicate _ _ (by omega)]
    rfl
  have hlen : (pad16 bs).length = bs.length + (16 - bs.length % 16) := by simp [pad16]
  have hdrop : (pad16 bs).drop (bs.length + (16 - bs.length % 16) - (16 - bs.length % 16))
      = List.replicate (16 - bs.length % 16) (16 - bs.length % 16) := by
    rw [show bs.length + (16 - bs.length % 16) - (16 - bs.length % 16) = bs.length by omega,
      pad16]
    exact List.drop_left bs _
  have htake : (pad16 bs).take (bs.length + (16 - bs.length % 16) - (16 - bs.length % 16))
      = bs := by
    rw [show bs.length + (16 - bs.length % 16) - (16 - bs.length % 16) = bs.length by omega,
      pad16]
    exact List.take_left bs _
  unfold unpad
  rw [hgl, hlen, if_pos ⟨by omega, by omega, by omega, hdrop⟩, htake]

/-! ## xor and CBC -/

theorem xorBytes_cancel : ∀ (a b : List Nat), a.length = b.length →
    xorBytes (xorBytes a b) b = a := by
  intro a
  induction a with
  | nil => intro b h; cases b <;> simp [xorBytes]
  | cons x a ih =>
    intro b h
    cases b with
    | nil => simp at h
    | cons y b =>
      have hab : a.length = b.length := by simpa using h
      simp only [xorBytes, List.zipWith_cons_cons]
      rw [Nat.xor_assoc, Nat.xor_self, Nat.xor_zero]
      exact congrArg (x :: ·) (ih b hab)

theorem xorBytes_length (a b : List Nat) :
    (xorBytes a b).length = min a.length b.length := by
  simp [xorBytes]

theorem xorBytes_lt : ∀ (a b : List Nat), (∀ x ∈ a, x < 256) → (∀ x ∈ b, x < 256) →
    ∀ x ∈ xorBytes a b, x < 256 := by
  intro a
  induction a with
  | nil => intro b _ _ x hx; simp [xorBytes] at hx
  | cons v a ih =>
    intro b ha hb x hx
    cases b with
    | nil => simp [xorBytes] at hx
    | cons w b =>
      simp only [xorBytes, List.zipWith_cons_cons, List.mem_cons] at hx
      rcases hx with rfl | hx
      · have hv : v < 2 ^ 8 := by have := ha v (by simp); omega
        have hw : w < 2 ^ 8 := by have := hb w (by simp); omega
        have := Nat.xor_lt_two_pow hv hw
        omega
      · exact ih b (fun y hy => ha y (by simp [hy])) (fun y hy => hb y (by simp [hy])) x hx

theorem cbcEnc_blocks (E : List Nat → List Nat → List Nat) (key : List Nat)
    (hE_len : ∀ b, b.length = 16 → (E key b).length = 16)
    (hE_lt : ∀ b, b.length = 16 → (∀ x ∈ b, x < 256) → ∀ x ∈ E key b, x < 256) :
    ∀ (blocks : List (List Nat)) (prev : List Nat),
      (∀ b ∈ blocks, b.length = 16 ∧ ∀ x ∈ b, x < 256) →
      prev.length = 16 → (∀ x ∈ prev, x < 256) →
      ∀ c ∈ cbcEnc E key prev blocks, c.length = 16 ∧ ∀ x ∈ c, x < 256 := by
  intro blocks
  induction blocks with
  | nil => intro prev _ _ _ c hc; simp [cbcEnc] at hc
  | cons b bs ih =>
    intro prev hbs hp16 hplt c hc
    obtain ⟨hb16, hblt⟩ := hbs b (by simp)
    have hx16 : (xorBytes b prev).length = 16 := by rw [xorBytes_length, hb16, hp16]; rfl
    have hxlt : ∀ x ∈ xorBytes b prev, x < 256 := xorBytes_lt b prev hblt hplt
    have he16 : (E key (xorBytes b prev)).length = 16 := hE_len _ hx16
    have helt : ∀ x ∈ E key (xorBytes b prev), x < 256 := hE_lt _ hx16 hxlt
    simp only [cbcEnc, List.mem_cons] at hc
    rcases hc with rfl | hc
    · exact ⟨he16, helt⟩
    · exact ih (E key (xorBytes b prev)) (fun y hy => hbs y (by simp [hy])) he16 helt c hc

theorem cbc_roundtrip (E D : List Nat → List Nat → List Nat) (key : List Nat)
    (hED : ∀ b, b.length = 16 → (∀ x ∈ b, x < 256) → D key (E key b) = b)
    (hE_len : ∀ b, b.length = 16 → (E key b).length = 16)
    (hE_lt : ∀ b, b.length = 16 → (∀ x ∈ b, x < 256) → ∀ x ∈ E key b, x < 256) :
    ∀ (blocks : List (List Nat)) (prev : List Nat),
      (∀ b ∈ blocks, b.length = 16 ∧ ∀ x ∈ b, x < 256) →
      prev.length = 16 → (∀ x ∈ prev, x < 256) →
      cbcDec D key prev (cbcEnc E key prev blocks) = blocks := by
  intro blocks
  induction blocks with
  | nil => intro prev _ _ _; rfl
  | cons b bs ih =>
    intro prev hbs hp16 hplt
    obtain ⟨hb16, hblt⟩ := hbs b (by simp)
    have hx16 : (xorBytes b prev).length = 16 := by rw [xorBytes_length, hb16, hp16]; rfl
    have hxlt : ∀ x ∈ xorBytes b prev, x < 256 := xorBytes_lt b prev hblt hplt
    simp only [cbcEnc, cbcDec]
    rw [hED _ hx16 hxlt, xorBytes_cancel b prev (by omega),
      ih (E key (xorBytes b prev)) (fun y hy => hbs y (by simp [hy])) (hE_len _ hx16)
        (hE_lt _ hx16 hxlt)]

theorem flatten_mod16 : ∀ cs : List (List Nat), (∀ c ∈ cs, c.length = 16) →
    cs.flatten.length % 16 = 0 := by
  intro cs
  induction cs with
  | nil => intro; rfl
  | cons c cs ih =>
    intro h
    rw [List.flatten_cons, List.length_append, h c (by simp)]
    have := ih (fun y hy => h y (by simp [hy]))
    omega

theorem flatten_lt : ∀ cs : List (List Nat), (∀ c ∈ cs, ∀ x ∈ c, x < 256) →
    ∀ x ∈ cs.flatten, x < 256 := by
  intro cs h x hx
  rw [List.mem_flatten] at hx
  obtain ⟨c, hc, hxc⟩ := hx
  exact h c hc x hxc

/-! ## Load-path characterization -/

theorem loadMarkdownFile_eq (D : List Nat → List Nat → List Nat)
    (pathname decoded preferredEol : List Char) (t : Nat) :
    loadMarkdownFile D pathname decoded preferredEol t =
      { markdown := (loadStep (applyLoadCodec D pathname decoded)
          (containsBareLf (applyLoadCodec D pathname decoded))
          (containsCrlf (applyLoadCodec D pathname decoded))
          (resolveLineEnding (containsBareLf (applyLoadCodec D pathname decoded))
            (containsCrlf (applyLoadCodec D pathname decoded)) preferredEol)).2
        filename := basename pathname
        pathname := pathname
        lineEnding := resolveLineEnding (containsBareLf (applyLoadCodec D pathname decoded))
          (containsCrlf (applyLoadCodec D pathname decoded)) preferredEol
        adjustLineEndingOnSave := (loadStep (applyLoadCodec D pathname decoded)
          (containsBareLf (applyLoadCodec D pathname decoded))
          (containsCrlf (applyLoadCodec D pathname decoded))
          (resolveLineEnding (containsBareLf (applyLoadCodec D pathname decoded))
            (containsCrlf (applyLoadCodec D pathname decoded)) preferredEol)).1
        trimTrailingNewline := classifyTrailingNewline t
          ((loadStep (applyLoadCodec D pathname decoded)
            (containsBareLf (applyLoadCodec D pathname decoded))
            (containsCrlf (applyLoadCodec D pathname decoded))
            (resolveLineEnding (containsBareLf (applyLoadCodec D pathname decoded))
              (containsCrlf (applyLoadCodec D pathname decoded)) preferredEol)).2)
        isMixedLineEndings := containsBareLf (applyLoadCodec D pathname decoded) &&
          containsCrlf (applyLoadCodec D pathname decoded) } := rfl

theorem loadStep_fst (md : List Char) (isLf isCrlf : Bool) (le : List Char) :
    (loadStep md isLf isCrlf le).1 = decide (le ≠ "lf".data) := by
  by_cases hle : le = "lf".data
  · subst hle
    unfold loadStep
    split
    · rfl
    · simp
  · unfold loadStep
    rw [if_pos (by simp [hle])]

/-! ## Trailing-newline classification vs its end-of-content reading -/

theorem getD_append_add : ∀ (l rest : List Char) (k : Nat) (d : Char),
    (l ++ rest).getD (l.length + k) d = rest.getD k d := by
  intro l
  induction l with
  | nil => intro rest k d; simp
  | cons c l ih =>
    intro rest k d
    simp only [List.cons_append, List.length_cons]
    rw [show l.length + 1 + k = l.length + k + 1 by omega, List.getD_cons_succ]
    exact ih rest k d

theorem classify2_spec : ∀ md : List Char, classifyTrailingNewline 2 md = specTrailingClass md := by
  intro md
  induction md using List.reverseRecOn with
  | nil => rfl
  | append_singleton l a ihl =>
    clear ihl
    induction l using List.reverseRecOn with
    | nil =>
      by_cases ha : a = '\n' <;>
        simp [classifyTrailingNewline, specTrailingClass, ha]
    | append_singleton l' b ihl' =>
      clear ihl'
      have hgd1 : ((l' ++ [b]) ++ [a]).getD (l'.length + 1) ' ' = a := by
        rw [List.append_assoc]
        exact getD_append_add l' ([b] ++ [a]) 1 ' '
      have hgd0 : ((l' ++ [b]) ++ [a]).getD l'.length ' ' = b := by
        rw [List.append_assoc]
        exact getD_append_add l' ([b] ++ [a]) 0 ' '
      have hlen : ((l' ++ [b]) ++ [a]).length - 1 = l'.length + 1 := by simp
      have hlen2 : ((l' ++ [b]) ++ [a]).length - 1 - 1 = l'.length := by simp
      have hne : ¬((l' ++ [b]) ++ [a] = []) := by simp
      have hone : 1 ≤ l'.length + 1 := by omega
      rw [classifyTrailingNewline, if_pos rfl, if_neg hne, hlen2, hlen, hgd1, hgd0,
        specTrailingClass, if_neg hne, List.getLast?_concat, List.dropLast_concat,
        List.getLast?_concat]
      by_cases ha : a = '\n' <;> by_cases hb : b = '\n' <;> simp [ha, hb, hone]

/-! ## Carriage returns after load -/

theorem no_cr_of_crOk_no_crlf : ∀ (n : Nat) (l : List Char), l.length ≤ n →
    crOk l = true → containsCrlf l = false → '\r' ∉ l := by
  intro n
  induction n with
  | zero =>
    intro l h _ _
    have : l = [] := List.length_eq_zero.mp (by omega)
    subst this
    simp
  | succ k ih =>
    intro l h h1 h2
    rcases l with _ | ⟨c, _ | ⟨r, rest⟩⟩
    · simp
    · rw [crOk] at h1
      by_cases hc : c = '\r'
      · rw [if_pos hc] at h1
        exact absurd h1 (by simp)
      · simp only [List.mem_singleton]
        exact fun h' => hc h'.symm
    · rw [crOk] at h1
      rw [containsCrlf] at h2
      by_cases hc : c = '\r'
      · rw [if_pos hc] at h1 h2
        by_cases hr : r = '\n'
        · rw [if_pos hr] at h2
          exact absurd h2 (by simp)
        · rw [if_neg hr] at h1
          exact absurd h1 (by simp)
      · rw [if_neg hc] at h1 h2
        have hrec := ih (r :: rest) (by simp at h ⊢; omega) h1 h2
        intro hmem
        rcases List.mem_cons.mp hmem with h' | h'
        · exact hc h'.symm
        · exact hrec h'

theorem no_cr_replaceEol : ∀ (n : Nat) (l : List Char), l.length ≤ n →
    crOk l = true → '\r' ∉ replaceEol ['\n'] l := by
  intro n
  induction n with
  | zero =>
    intro l h _
    have : l = [] := List.length_eq_zero.mp (by omega)
    subst this
    simp [replaceEol]
  | succ k ih =>
    intro l h h1
    rcases l with _ | ⟨c, _ | ⟨r, rest⟩⟩
    · simp [replaceEol]
    · rw [crOk] at h1
      rw [replaceEol]
      by_cases hc : c = '\r'
      · rw [if_pos hc] at h1
        exact absurd h1 (by simp)
      · by_cases hn : c = '\n'
        · simp [hn]
        · rw [if_neg hn]
          simp only [List.mem_singleton]
          exact fun h' => hc h'.symm
    · rw [crOk] at h1
      rw [replaceEol]
      by_cases hc : c = '\r'
      · rw [if_pos hc] at h1 ⊢
        by_cases hr : r = '\n'
        · rw [if_pos hr] at h1 ⊢
          have hrec := ih rest (by simp at h ⊢; omega) h1
          intro hmem
          rcases List.mem_append.mp hmem with h' | h'
          · simp at h'
          · exact hrec h'
        · rw [if_neg hr] at h1
          exact absurd h1 (by simp)
      · rw [if_neg hc] at h1 ⊢
        have hrec := ih (r :: rest) (by simp at h ⊢; omega) h1
        by_cases hn : c = '\n'
        · rw [if_pos hn]
          intro hmem
          rcases List.mem_append.mp hmem with h' | h'
          · simp at h'
          · exact hrec h'
        · rw [if_neg hn]
          intro hmem
          rcases List.mem_cons.mp hmem with h' | h'
          · exact hc h'.symm
          · exact hrec h'

theorem no_cr_loadStep (md : List Char) (pe : List Char) (h : crOk md = true) :
    '\r' ∉ (loadStep md (containsBareLf md) (containsCrlf md)
      (resolveLineEnding (containsBareLf md) (containsCrlf md) pe)).2 := by
  unfold loadStep
  split
  · show '\r' ∉ convertLineEndings md "lf".data
    have hconv : convertLineEndings md "lf".data = replaceEol ['\n'] md := rfl
    rw [hconv]
    exact no_cr_replaceEol md.length md le_rfl h
  · rename_i hcond
    show '\r' ∉ md
    by_cases hcrlf : containsCrlf md = true
    · exfalso
      cases hlf : containsBareLf md
      · rw [hlf, hcrlf] at hcond
        exact hcond rfl
      · rw [hlf, hcrlf] at hcond
        exact hcond rfl
    · have hcrlf' : containsCrlf md = false := by simpa using hcrlf
      exact no_cr_of_crOk_no_crlf md.length md le_rfl h hcrlf'

/-! ## Orphan-collector characterization -/

theorem foldl_or (f : List Char → Bool) :
    ∀ (l : List (List Char)) (b : Bool),
      l.foldl (fun acc p => if f p then true else acc) b = (b || l.any f) := by
  intro l
  induction l with
  | nil => intro b; simp
  | cons p l ih =>
    intro b
    rw [List.foldl_cons, ih, List.any_cons]
    cases hf : f p <;> simp [hf]

theorem hasRef_any (imgRow : List (List Char)) (dirFile : List Char) :
    hasRef imgRow dirFile = imgRow.any (fun r => occurs dirFile r) := by
  unfold hasRef
  rw [foldl_or (fun r => occurs dirFile r) imgRow false]
  simp

theorem notNeedFiles_foldl (dir : List Char) (imgRow : List (List Char)) :
    ∀ (dirFiles acc : List (List Char)),
      dirFiles.foldl
        (fun acc dirFile =>
          if hasRef imgRow dirFile then acc else acc ++ [dir ++ '/' :: dirFile]) acc
      = acc ++ (dirFiles.filter (fun f => !hasRef imgRow f)).map (fun f => dir ++ '/' :: f) := by
  intro dirFiles
  induction dirFiles with
  | nil => intro acc; simp
  | cons f fs ih =>
    intro acc
    rw [List.foldl_cons, ih]
    cases hf : hasRef imgRow f <;> simp [List.filter_cons, hf]

theorem notNeedFiles_eq (dir : List Char) (dirFiles imgRow : List (List Char)) :
    notNeedFiles dir dirFiles imgRow
      = (dirFiles.filter (fun f => !(imgRow.any (fun r => occurs f r)))).map
          (fun f => dir ++ '/' :: f) := by
  unfold notNeedFiles
  rw [notNeedFiles_foldl]
  simp only [List.nil_append]
  congr 1
  apply List.filter_congr
  intro f _
  rw [hasRef_any]

/-! ## First-occurrence replacement -/

theorem replaceFirst_append (pre suf pat rep : List Char)
    (h : ∀ i, i < pre.length → ¬ pat.isPrefixOf ((pre ++ suf).drop i)) :
    replaceFirst (pre ++ suf) pat rep = pre ++ replaceFirst suf pat rep := by
  induction pre with
  | nil => simp
  | cons c pre ih =>
    rw [List.cons_append, replaceFirst.eq_def, if_neg (by simpa using h 0 (by simp))]
    show c :: replaceFirst (pre ++ suf) pat rep = c :: (pre ++ replaceFirst suf pat rep)
    rw [ih]
    intro i hi
    have := h (i + 1) (by simp; omega)
    simpa using this

theorem replaceFirst_self_append (pat t rep : List Char) :
    replaceFirst (pat ++ t) pat rep = rep ++ t := by
  rw [replaceFirst.eq_def,
    if_pos (by rw [List.isPrefixOf_iff_prefix]; exact List.prefix_append pat t),
    List.drop_left]

theorem replaceFirst_no_occurrence : ∀ (s pat rep : List Char), pat ≠ [] →
    (∀ i, i < s.length → ¬ pat.isPrefixOf (s.drop i)) → replaceFirst s pat rep = s := by
  intro s
  induction s with
  | nil =>
    intro pat rep hp _
    rw [replaceFirst.eq_def, if_neg]
    cases pat with
    | nil => exact absurd rfl hp
    | cons a l => simp [List.isPrefixOf]
  | cons c rest ih =>
    intro pat rep hp h
    rw [replaceFirst.eq_def, if_neg (by simpa using h 0 (by simp))]
    show c :: replaceFirst rest pat rep = c :: rest
    rw [ih pat rep hp]
    intro i hi
    have := h (i + 1) (by simp; omega)
    simpa using this

/-! ## Save-path codec selection -/

theorem saveAppliesEncrypt_eq (p : List Char) :
    saveAppliesEncrypt p = decide (extname p = ".mde".data) := by
  unfold saveAppliesEncrypt writeExtension
  by_cases h : extname p = []
  · rw [if_pos h, h]
    rfl
  · rw [if_neg h]

/-! ## The stand-in block cipher is a byte-wise permutation -/

theorem sample_inverse (k : List Nat) : ∀ b : List Nat, (∀ x ∈ b, x < 256) →
    sampleBlockDec k (sampleBlockEnc k b) = b := by
  intro b
  induction b with
  | nil => intro; rfl
  | cons x bs ih =>
    intro h
    show ((x + 1) % 256 + 255) % 256 :: sampleBlockDec k (sampleBlockEnc k bs) = x :: bs
    rw [ih (fun y hy => h y (by simp [hy]))]
    have := h x (by simp)
    congr 1
    omega

theorem sample_len (k b : List Nat) : (sampleBlockEnc k b).length = b.length := by
  simp [sampleBlockEnc]

theorem sample_lt (k b : List Nat) : ∀ x ∈ sampleBlockEnc k b, x < 256 := by
  intro x hx
  unfold sampleBlockEnc at hx
  rw [List.mem_map] at hx
  obtain ⟨y, _, rfl⟩ := hx
  exact Nat.mod_lt _ (by norm_num)

/-! # Claim theorems -/

/-- C1: the claim says a failed decryption during load surfaces a recoverable
`DecryptionFailure` and the ciphertext is never returned as content.  The
code's empty `catch` block does the opposite: on the undecryptable content
`"!!!"` of a `.mde` file, `aesDecryptiv` fails (`none`) yet `loadMarkdownFile`
returns normally with the raw ciphertext as the document's markdown. -/
theorem c1_decryptionFailureSwallowed :
    aesDecryptiv sampleBlockDec "!!!".data mm = none ∧
    (loadMarkdownFile sampleBlockDec "note.mde".data "!!!".data "lf".data 2).markdown
      = "!!!".data := by
  constructor
  · decide
  · decide

/-- C2: the claim says a fresh random IV is drawn per encryption so two
encryptions of the same content differ.  In the code `const iv = keyBuffer`:
the IV is a function of the key alone — `aesEncryptiv` coincides with the
spec's explicit-IV encryption applied to the fixed IV `hexDecode key`, so the
encryption is deterministic and two encryptions of the same content under the
process key produce identical ciphertext. -/
theorem c2_ivDerivedFromKey :
    (∀ (E : List Nat → List Nat → List Nat) (str key : List Char),
      aesEncryptiv E str key = aesEncryptivFreshIv E str key (hexDecode key)) ∧
    aesEncryptiv sampleBlockEnc "hi".data mm = aesEncryptiv sampleBlockEnc "hi".data mm :=
  ⟨fun _ _ _ => rfl, rfl⟩

/-- C3 counterexample: the claim classifies empty content as `disabled` (2),
but the code assigns the default sentinel 3 (`// Use default value`), which
differs from the value 2 produced by the disabled branch (content ending in
two LFs). -/
theorem c3_counterexample :
    (loadMarkdownFile sampleBlockDec "a.md".data [] "lf".data 2).trimTrailingNewline = 3 ∧
    (loadMarkdownFile sampleBlockDec "a.md".data "x\n\n".data "lf".data 2).trimTrailingNewline
      = 2 ∧
    (3 : Nat) ≠ 2 := by
  refine ⟨by decide, by decide, by decide⟩

/-- C3 (amended): when the caller supplies no override (value 2), the
trailing-newline field of the loaded document classifies its LF-normalized
markdown as: empty → default sentinel 3, last two characters both LF →
disabled (2), last character LF with second-to-last not LF → ensure-single
(1), no trailing LF → trim-all (0). -/
theorem c3_trailingNewlineClassification (D : List Nat → List Nat → List Nat)
    (pathname decoded preferredEol : List Char) :
    (loadMarkdownFile D pathname decoded preferredEol 2).trimTrailingNewline
      = specTrailingClass (loadMarkdownFile D pathname decoded preferredEol 2).markdown := by
  rw [loadMarkdownFile_eq]
  exact classify2_spec _

/-- C4 counterexample: the claim says `adjustLineEndingOnSave` is also true
whenever mixed line endings were detected, even when the resolved style is
`lf`.  Loading mixed content `"a\nb\r\nc"` with preferred style `lf` detects
mixed endings, resolves to `lf`, and leaves the flag `false`. -/
theorem c4_counterexample :
    (loadMarkdownFile sampleBlockDec "a.md".data "a\nb\r\nc".data "lf".data 2).isMixedLineEndings
      = true ∧
    (loadMarkdownFile sampleBlockDec "a.md".data "a\nb\r\nc".data "lf".data 2).lineEnding
      = "lf".data ∧
    (loadMarkdownFile sampleBlockDec "a.md".data "a\nb\r\nc".data "lf".data 2).adjustLineEndingOnSave
      = false := by
  refine ⟨by decide, by decide, by decide⟩

/-- C4 (amended): `adjustLineEndingOnSave` is true exactly when the resolved
line-ending style differs from canonical `lf`; mixed or unknown detection
only triggers normalization, never the flag by itself. -/
theorem c4_adjustIffNonLf (D : List Nat → List Nat → List Nat)
    (pathname decoded preferredEol : List Char) (t : Nat) :
    (loadMarkdownFile D pathname decoded preferredEol t).adjustLineEndingOnSave
      = decide ((loadMarkdownFile D pathname decoded preferredEol t).lineEnding
          ≠ "lf".data) := by
  rw [loadMarkdownFile_eq]
  exact loadStep_fst _ _ _ _

/-- C5 counterexample: the claim says loaded content never contains a
carriage return.  A lone CR (not part of a CRLF pair) is matched by neither
line-ending regex and survives normalization: loading `"a\r"` returns
markdown still containing `'\r'`. -/
theorem c5_counterexample :
    '\r' ∈ (loadMarkdownFile sampleBlockDec "a.md".data "a\r".data "lf".data 2).markdown := by
  decide

/-- C5 (amended): provided every carriage return of the post-codec decoded
content is immediately followed by a line feed (no lone CR), the loaded
markdown contains no carriage-return character, whatever mix of LF and CRLF
the source used. -/
theorem c5_noCarriageReturn (D : List Nat → List Nat → List Nat)
    (pathname decoded preferredEol : List Char) (t : Nat)
    (h : crOk (applyLoadCodec D pathname decoded) = true) :
    '\r' ∉ (loadMarkdownFile D pathname decoded preferredEol t).markdown := by
  rw [loadMarkdownFile_eq]
  exact no_cr_loadStep _ _ h

/-- C5 witness: CRLF-only content satisfies the hypothesis and loads to
CR-free markdown. -/
theorem c5_noCarriageReturn_witness :
    crOk (applyLoadCodec sampleBlockDec "a.md".data "x\r\ny".data) = true ∧
    '\r' ∉ (loadMarkdownFile sampleBlockDec "a.md".data "x\r\ny".data "lf".data 2).markdown :=
  ⟨by decide,
    c5_noCarriageReturn sampleBlockDec "a.md".data "x\r\ny".data "lf".data 2 (by decide)⟩

/-- C6: on `"![x](a.png) <img src=\"b.png\">"` the scanner yields exactly the
markdown-style match (containing `a.png`) followed by the html-style match
(containing `b.png`), and every entry of the result is the percent-decoding
of its raw regex match. -/
theorem c6_scannerTestVector :
    getRelativeImgPathFromMarkdown "![x](a.png) <img src=\"b.png\">".data
      = some ["[x](a.png)".data, " src=\"b.png\"".data] ∧
    occurs "a.png".data "[x](a.png)".data = true ∧
    occurs "b.png".data " src=\"b.png\"".data = true ∧
    (∀ markdown : List Char, getRelativeImgPathFromMarkdown markdown
      = (imgMarkMatches markdown ++ imgHtmlMatches markdown).mapM decodeURI) := by
  refine ⟨by decide, by decide, by decide, fun _ => rfl⟩

/-- C7: with an existing asset directory, an empty reference sequence makes
the whole directory the only deletion candidate; with a nonempty reference
sequence an entry is a candidate iff its name is not a substring of any
reference, candidates being emitted as `dir/entry` paths; and on entries
`{a.png, b.png, c.png}` with references `{a.png}` the candidates are exactly
`{doc.assets/b.png, doc.assets/c.png}`. -/
theorem c7_orphanCandidates (filePath : List Char) (dirFiles imgRow : List (List Char)) :
    checkImgCandidates true dirFiles filePath [] = [assetDir filePath] ∧
    (imgRow ≠ [] → checkImgCandidates true dirFiles filePath imgRow
        = (dirFiles.filter (fun f => !(imgRow.any (fun r => occurs f r)))).map
            (fun f => assetDir filePath ++ '/' :: f)) ∧
    checkImgCandidates true ["a.png".data, "b.png".data, "c.png".data] "doc.md".data
        ["a.png".data]
      = ["doc.assets/b.png".data, "doc.assets/c.png".data] := by
  refine ⟨rfl, ?_, by decide⟩
  intro h
  cases imgRow with
  | nil => exact absurd rfl h
  | cons r rs =>
    show notNeedFiles (assetDir filePath) dirFiles (r :: rs) = _
    exact notNeedFiles_eq _ _ _

/-- C7 witness: the substring-filter characterization applied at the concrete
directory listing of the claim. -/
theorem c7_orphanCandidates_witness :
    (["a.png".data] ≠ ([] : List (List Char))) ∧
    checkImgCandidates true ["a.png".data, "b.png".data, "c.png".data] "doc.md".data
        ["a.png".data]
      = ((["a.png".data, "b.png".data, "c.png".data] : List (List Char)).filter
          (fun f => !((["a.png".data] : List (List Char)).any (fun r => occurs f r)))).map
          (fun f => assetDir "doc.md".data ++ '/' :: f) :=
  ⟨by decide, (c7_orphanCandidates "doc.md".data ["a.png".data, "b.png".data, "c.png".data]
    ["a.png".data]).2.1 (by decide)⟩

/-- C8 counterexample: the claim says the asset directory is obtained by
stripping the document's extension and appending `.assets`.  The code instead
replaces the first occurrences of the literal substrings `.mde` and `.md`:
for `note.markdown` (a supported markdown extension) neither substring
occurs, the pathname is returned unchanged, and it differs from the claimed
`note.assets`. -/
theorem c8_counterexample :
    assetDir "note.markdown".data = "note.markdown".data ∧
    "note.markdown".data ≠ "note".data ++ ".assets".data := by
  refine ⟨by decide, by decide⟩

/-- C8 (amended): the collector replaces the first occurrence of `.mde` and
then of `.md` with `.assets`; when the only occurrences of those substrings
are the pathname's final `.md` or `.mde` extension, this coincides with
stripping the extension and appending `.assets` (the sibling
`<base>.assets`). -/
theorem c8_assetDirFinalExtension (base : List Char)
    (h1 : ∀ i, i < (base ++ ".md".data).length →
      ¬ ".mde".data.isPrefixOf ((base ++ ".md".data).drop i))
    (h2 : ∀ i, i < base.length → ¬ ".md".data.isPrefixOf ((base ++ ".md".data).drop i))
    (h3 : ∀ i, i < base.length → ¬ ".mde".data.isPrefixOf ((base ++ ".mde".data).drop i))
    (h4 : ∀ i, i < (base ++ ".assets".data).length →
      ¬ ".md".data.isPrefixOf ((base ++ ".assets".data).drop i)) :
    assetDir (base ++ ".md".data) = base ++ ".assets".data ∧
    assetDir (base ++ ".mde".data) = base ++ ".assets".data := by
  constructor
  · unfold assetDir
    rw [replaceFirst_no_occurrence _ _ _ (by decide) h1,
      replaceFirst_append base ".md".data ".md".data ".assets".data h2,
      show replaceFirst ".md".data ".md".data ".assets".data = ".assets".data from by decide]
  · unfold assetDir
    rw [replaceFirst_append base ".mde".data ".mde".data ".assets".data h3,
      show replaceFirst ".mde".data ".mde".data ".assets".data = ".assets".data from by decide,
      replaceFirst_no_occurrence _ _ _ (by decide) h4]

/-- C8 witness: for `note.md` and `note.mde` the derivation is exactly
`note.assets`. -/
theorem c8_assetDirFinalExtension_witness :
    (∀ i, i < ("note".data ++ ".md".data).length →
      ¬ ".mde".data.isPrefixOf (("note".data ++ ".md".data).drop i)) ∧
    (∀ i, i < "note".data.length →
      ¬ ".md".data.isPrefixOf (("note".data ++ ".md".data).drop i)) ∧
    (∀ i, i < "note".data.length →
      ¬ ".mde".data.isPrefixOf (("note".data ++ ".mde".data).drop i)) ∧
    (∀ i, i < ("note".data ++ ".assets".data).length →
      ¬ ".md".data.isPrefixOf (("note".data ++ ".assets".data).drop i)) ∧
    assetDir ("note".data ++ ".md".data) = "note".data ++ ".assets".data ∧
    assetDir ("note".data ++ ".mde".data) = "note".data ++ ".assets".data :=
  ⟨by decide, by decide, by decide, by decide,
    (c8_assetDirFinalExtension "note".data (by decide) (by decide) (by decide) (by decide)).1,
    (c8_assetDirFinalExtension "note".data (by decide) (by decide) (by decide) (by decide)).2⟩

/-- C9: the claimed round trip `decrypt(encrypt(content)) == content` fails
on the program.  `cipher.update(…, 'base64')` and `cipher.final('base64')`
each emit an independently `=`-padded base64 string and the code concatenates
them; Node's base64 decoder stops at the first `=`, so the decrypt path only
sees the `update` part.  For the sixteen-character content
`'aaaaaaaaaaaaaaaa'` (one complete block) the 48-character ciphertext carries
an interior `==` at the end of its first 24 characters, decryption truncates
to the first ciphertext block, the padding check fails and
`decipher.final()` throws bad decrypt (`none` here).  Contents shorter than
one block still round-trip — the `update` part is empty — as the `"ok"`
instance shows.  Evaluated with the concrete stand-in block permutation. -/
theorem c9_roundTripTruncatedByInteriorPadding :
    aesDecryptiv sampleBlockDec
      (aesEncryptiv sampleBlockEnc "aaaaaaaaaaaaaaaa".data mm) mm = none ∧
    (aesEncryptiv sampleBlockEnc "aaaaaaaaaaaaaaaa".data mm).length = 48 ∧
    ((aesEncryptiv sampleBlockEnc "aaaaaaaaaaaaaaaa".data mm).take 24).getLast?
      = some '=' ∧
    aesDecryptiv sampleBlockDec (aesEncryptiv sampleBlockEnc "ok".data mm) mm
      = some "ok".data :=
  ⟨by decide, by decide, by decide, by decide⟩

/-- C10: the two codec-selection predicates are different functions of the
pathname — load decrypts exactly when the pathname ends with `.mde`, save
encrypts exactly when `path.extname` equals `.mde` — and they disagree on
the dotfile `".mde"`, which load decrypts but save writes unencrypted. -/
theorem c10_codecSelectionMismatch :
    (∀ p : List Char, loadAppliesDecrypt p = ".mde".data.isSuffixOf p) ∧
    (∀ p : List Char, saveAppliesEncrypt p = decide (extname p = ".mde".data)) ∧
    loadAppliesDecrypt ".mde".data = true ∧
    saveAppliesEncrypt ".mde".data = false ∧
    writeMarkdownFile sampleBlockEnc ".mde".data "hi".data false "lf".data = "hi".data := by
  refine ⟨fun _ => rfl, saveAppliesEncrypt_eq, by decide, by decide, by decide⟩

end MarkText
